import Mathlib

/-!
Shallow embedding of the repository's two order-book cores.

* `Orderbook` models `src/orderbook.rs` (the venue-fed L2 book, "VenueBook"
  in the specification).  Its `BTreeMap<Price, Quantity>` sides are embedded
  as functions `Nat → Option Nat`; prices and quantities are the engine's
  integer units (the `to_u64` fixed-point conversion happens at the wire
  boundary and is not part of these claims).
* `OrderbookV2` models `src/orderbookv2.rs` (the matching engine, "MatchCore"
  in the specification).  The `BTreeMap<Reverse<Price>, OrderList>` /
  `BTreeMap<Price, OrderList>` sides are embedded as association lists kept in
  the map's iteration order (bids descending, asks ascending), and the
  `HashMap<OrderId, OrderPointer>` index as an association list in insertion
  order.  The `Rc<RefCell<Order>>` sharing between a level and the index is
  embedded by updating both copies at every mutation point.  Code paths that
  panic in Rust (`unwrap` on an emptied level, `panic!("Order not found")`)
  are embedded as `none`: a panicking call produces no observable state.
-/

namespace Orderbook

/-- `BookTickerUpdate` from `binance_payloads.rs`, with prices and quantities
already in integer units. -/
structure BookTickerUpdate where
  update_id : Nat
  symbol : String
  best_bid_price : Nat
  best_bid_quantity : Nat
  best_ask_price : Nat
  best_ask_quantity : Nat

/-- `DepthUpdate` from `binance_payloads.rs`, with prices and quantities
already in integer units. -/
structure DepthUpdate where
  last_update_id : Nat
  bids : List (Nat × Nat)
  asks : List (Nat × Nat)

/-- The venue-fed order book of `orderbook.rs`.  Each side is a finite map
`Price → Quantity`, embedded as a function to `Option`. -/
structure OrderBook where
  symbol : String
  bids : Nat → Option Nat
  asks : Nat → Option Nat
  last_update_id : Nat

/-- `OrderBook::new`. -/
def OrderBook.new (symbol : String) : OrderBook :=
  { symbol := symbol, bids := fun _ => none, asks := fun _ => none,
    last_update_id := 0 }

/-- `BTreeMap::insert` on a function-map. -/
def mapInsert (m : Nat → Option Nat) (p q : Nat) : Nat → Option Nat :=
  fun x => if x = p then some q else m x

/-- `BTreeMap::remove` on a function-map. -/
def mapRemove (m : Nat → Option Nat) (p : Nat) : Nat → Option Nat :=
  fun x => if x = p then none else m x

/-- `OrderBook::update_book_ticker`: unconditionally insert the ticker's
best-bid and best-ask entries.  `last_update_id` is not consulted. -/
def OrderBook.update_book_ticker (self : OrderBook) (data : BookTickerUpdate) :
    OrderBook :=
  { self with
    bids := mapInsert self.bids data.best_bid_price data.best_bid_quantity,
    asks := mapInsert self.asks data.best_ask_price data.best_ask_quantity }

/-- The per-side loop body of `OrderBook::update_depth`: a zero quantity
removes the key, a non-zero quantity upserts it. -/
def applyDepthSide (m : Nat → Option Nat) (pairs : List (Nat × Nat)) :
    Nat → Option Nat :=
  pairs.foldl (fun acc e => if e.2 = 0 then mapRemove acc e.1
                            else mapInsert acc e.1 e.2) m

/-- `OrderBook::update_depth`: drop stale updates
(`data.last_update_id <= self.last_update_id`), otherwise fold both pair
lists and advance `last_update_id`. -/
def OrderBook.update_depth (self : OrderBook) (data : DepthUpdate) : OrderBook :=
  if data.last_update_id ≤ self.last_update_id then self
  else
    { self with
      bids := applyDepthSide self.bids data.bids,
      asks := applyDepthSide self.asks data.asks,
      last_update_id := data.last_update_id }

/-- States reachable from a fresh book by any sequence of
`update_book_ticker` and `update_depth` calls. -/
inductive Reachable : OrderBook → Prop where
  | new (symbol : String) : Reachable (OrderBook.new symbol)
  | ticker {st : OrderBook} (u : BookTickerUpdate) :
      Reachable st → Reachable (st.update_book_ticker u)
  | depth {st : OrderBook} (u : DepthUpdate) :
      Reachable st → Reachable (st.update_depth u)

/-- States reachable when every applied ticker update carries non-zero
bid and ask quantities (depth updates unrestricted). -/
inductive ReachablePos : OrderBook → Prop where
  | new (symbol : String) : ReachablePos (OrderBook.new symbol)
  | ticker {st : OrderBook} (u : BookTickerUpdate) :
      ReachablePos st → u.best_bid_quantity ≠ 0 → u.best_ask_quantity ≠ 0 →
      ReachablePos (st.update_book_ticker u)
  | depth {st : OrderBook} (u : DepthUpdate) :
      ReachablePos st → ReachablePos (st.update_depth u)

/-- No zero-quantity entry on either side. -/
def NoZeroQty (st : OrderBook) : Prop :=
  (∀ p q, st.bids p = some q → q ≠ 0) ∧ (∀ p q, st.asks p = some q → q ≠ 0)

/-- Concrete depth update, sequence 100, used by the S6 scenario. -/
def uD100 : DepthUpdate := { last_update_id := 100, bids := [(10, 1)], asks := [] }

/-- Concrete stale depth update, sequence 99. -/
def uD99 : DepthUpdate := { last_update_id := 99, bids := [(10, 5)], asks := [] }

/-- Concrete fresh depth update, sequence 101, removing price 10 and
upserting price 9. -/
def uD101 : DepthUpdate := { last_update_id := 101, bids := [(10, 0), (9, 2)], asks := [] }

/-- Book after applying `uD100` to a fresh book. -/
def stS6 : OrderBook := (OrderBook.new "BNBUSDT").update_depth uD100

/-- Ticker update whose quantities are zero. -/
def uT0 : BookTickerUpdate :=
  { update_id := 1, symbol := "BNBUSDT", best_bid_price := 10,
    best_bid_quantity := 0, best_ask_price := 20, best_ask_quantity := 0 }

/-- Book after applying the zero-quantity ticker `uT0` to a fresh book. -/
def stT0 : OrderBook := (OrderBook.new "BNBUSDT").update_book_ticker uT0

/-- Ticker update with positive quantities. -/
def uT1 : BookTickerUpdate :=
  { update_id := 2, symbol := "BNBUSDT", best_bid_price := 10,
    best_bid_quantity := 3, best_ask_price := 20, best_ask_quantity := 4 }

/-- Book after applying `uT1` to a fresh book. -/
def stT1 : OrderBook := (OrderBook.new "BNBUSDT").update_book_ticker uT1

end Orderbook

namespace OrderbookV2

/-- `OrderType` from `orderbookv2.rs`. -/
inductive OrderType where
  | GoodToCancel
  | FillAndKill
deriving DecidableEq, Repr

/-- `Side` from `orderbookv2.rs`. -/
inductive Side where
  | Buy
  | Sell
deriving DecidableEq, Repr

/-- `Order` from `orderbookv2.rs` (`Price = i32`, `Quantity = u32`,
`OrderId = u64`). -/
structure Order where
  order_id : Nat
  price : Int
  remaining_quantity : Nat
  initial_quantity : Nat
  order_type : OrderType
  side : Side
deriving DecidableEq, Repr

/-- `TradeInfo` from `orderbookv2.rs`. -/
structure TradeInfo where
  order_id : Nat
  price : Int
  quantity : Nat
deriving DecidableEq, Repr

/-- `Trade` from `orderbookv2.rs`. -/
structure Trade where
  bid_trade : TradeInfo
  ask_trade : TradeInfo
deriving DecidableEq, Repr

/-- `OrderModify` from `orderbookv2.rs`. -/
structure OrderModify where
  order_id : Nat
  side : Side
  price : Int
  quantity : Nat
deriving DecidableEq, Repr

/-- One price level: the map key together with its FIFO `VecDeque` of
(shared, mutable) orders. -/
abbrev Level := Int × List Order

/-- `OrderBook` from `orderbookv2.rs`.  `bids` is kept in the iteration
order of `BTreeMap<Reverse<Price>, _>` (price descending), `asks` in the
order of `BTreeMap<Price, _>` (price ascending), and `orders` is the
`HashMap<OrderId, OrderPointer>` index as an association list. -/
structure OrderBook where
  bids : List Level
  asks : List Level
  orders : List (Nat × Order)
deriving DecidableEq, Repr

/-- `OrderBook::new`. -/
def OrderBook.new : OrderBook := { bids := [], asks := [], orders := [] }

/-- All orders resting in bid levels, in iteration order. -/
def bidOrders (st : OrderBook) : List Order := (st.bids.map Prod.snd).flatten

/-- All orders resting in ask levels, in iteration order. -/
def askOrders (st : OrderBook) : List Order := (st.asks.map Prod.snd).flatten

/-- All resting orders of the book. -/
def residents (st : OrderBook) : List Order := bidOrders st ++ askOrders st

/-- The ids currently present in the `orders` index. -/
def idxIds (st : OrderBook) : List Nat := st.orders.map Prod.fst

/-- `Rc` sharing: a fill seen through the index.  Replaces the indexed copy
of the order that was mutated in its level. -/
def updateIdx (idx : List (Nat × Order)) (o : Order) : List (Nat × Order) :=
  idx.map (fun e => if e.1 = o.order_id then (e.1, o) else e)

/-- `HashMap::remove` on the index (keys are unique in a `HashMap`, so
dropping every entry with the key is its removal). -/
def eraseIdx (idx : List (Nat × Order)) (id : Nat) : List (Nat × Order) :=
  idx.filter (fun e => e.1 != id)

/-- Insertion into the bids map: `entry(Reverse(price)).or_insert(..).push_back(..)`.
The list is kept in descending-price order, matching the `BTreeMap`'s
iteration order. -/
def insertOrderBid : List Level → Int → Order → List Level
  | [], p, o => [(p, [o])]
  | (k, l) :: t, p, o =>
    if p > k then (p, [o]) :: (k, l) :: t
    else if p = k then (k, l ++ [o]) :: t
    else (k, l) :: insertOrderBid t p o

/-- Insertion into the asks map, kept in ascending-price order. -/
def insertOrderAsk : List Level → Int → Order → List Level
  | [], p, o => [(p, [o])]
  | (k, l) :: t, p, o =>
    if p < k then (p, [o]) :: (k, l) :: t
    else if p = k then (k, l ++ [o]) :: t
    else (k, l) :: insertOrderAsk t p o

/-- `cancel_order`'s per-side body: `get_mut(&price)`, `retain(id ≠)`,
and removal of the level when it becomes empty. -/
def removeOrderAt : List Level → Int → Nat → List Level
  | [], _, _ => []
  | (k, l) :: t, p, id =>
    if k = p then
      let l' := l.filter (fun o => o.order_id != id)
      if l' = [] then t else (k, l') :: t
    else (k, l) :: removeOrderAt t p id

/-- `OrderBook::cancel_order`.  Panics (`none`) when the id is absent from
the index; otherwise reads the order's price by scanning the index values,
removes the index entry, and removes the order from its side's level. -/
def OrderBook.cancel_order (self : OrderBook) (order_id : Nat) :
    Option OrderBook :=
  if self.orders.all (fun e => e.1 != order_id) then
    none
  else
    match self.orders.find? (fun e => e.2.order_id == order_id) with
    | none => some self
    | some pe =>
      match self.orders.find? (fun e => e.1 == order_id) with
      | none => none
      | some entry =>
        let st1 : OrderBook := { self with orders := eraseIdx self.orders order_id }
        match entry.2.side with
        | Side.Sell => some { st1 with asks := removeOrderAt st1.asks pe.2.price order_id }
        | Side.Buy => some { st1 with bids := removeOrderAt st1.bids pe.2.price order_id }

/-- `OrderBook::can_match`. -/
def OrderBook.can_match (self : OrderBook) (price : Int) (side : Side) : Bool :=
  match side with
  | Side.Buy =>
    match self.asks.head? with
    | none => false
    | some best_ask => price ≥ best_ask.1
  | Side.Sell =>
    match self.bids.head? with
    | none => false
    | some best_bid => price ≤ best_bid.1

/-- The inner `while !bids.1.is_empty() && !asks.1.is_empty()` loop of
`match_orders`, acting on the two best levels.  The fill of the two front
orders also rewrites their shared copies in the index (`Rc` sharing); a
filled order is popped and its index entry removed.  The trade pushed at the
end of the iteration reads each side's `front().unwrap()` *after* the pops,
so an emptied level panics (`none`).  The fuel only bounds the recursion;
one unit per iteration always suffices because each iteration pops at least
one order. -/
def matchLevels (fuel : Nat) (pB pA : Int) (b a : List Order)
    (idx : List (Nat × Order)) :
    Option (List Order × List Order × List (Nat × Order) × List Trade) :=
  match fuel with
  | 0 => none
  | fuel + 1 =>
    match b, a with
    | [], a => some ([], a, idx, [])
    | b, [] => some (b, [], idx, [])
    | bid :: bt, ask :: at' =>
      let quantity := min bid.remaining_quantity ask.remaining_quantity
      let bid' := { bid with remaining_quantity := bid.remaining_quantity - quantity }
      let ask' := { ask with remaining_quantity := ask.remaining_quantity - quantity }
      let idx1 := updateIdx (updateIdx idx bid') ask'
      let bq := if bid'.remaining_quantity = 0 then bt else bid' :: bt
      let idx2 := if bid'.remaining_quantity = 0 then eraseIdx idx1 bid'.order_id else idx1
      let aq := if ask'.remaining_quantity = 0 then at' else ask' :: at'
      let idx3 := if ask'.remaining_quantity = 0 then eraseIdx idx2 ask'.order_id else idx2
      match bq.head?, aq.head? with
      | some fb, some fa =>
        match matchLevels fuel pB pA bq aq idx3 with
        | none => none
        | some (b', a', idx', ts) =>
          some (b', a', idx',
            { bid_trade := { order_id := fb.order_id, price := pB, quantity := quantity },
              ask_trade := { order_id := fa.order_id, price := pA, quantity := quantity } } :: ts)
      | _, _ => none

/-- The FAK sweep on the bid side: if the front of the best bid level is a
Fill-And-Kill order, cancel it.  `front().unwrap()` on an empty stored level
panics (`none`). -/
def fakSweepBid (st : OrderBook) : Option OrderBook :=
  match st.bids with
  | [] => some st
  | (_, l) :: _ =>
    match l.head? with
    | none => none
    | some first_order =>
      if first_order.order_type = OrderType.FillAndKill then
        st.cancel_order first_order.order_id
      else some st

/-- The FAK sweep on the ask side. -/
def fakSweepAsk (st : OrderBook) : Option OrderBook :=
  match st.asks with
  | [] => some st
  | (_, l) :: _ =>
    match l.head? with
    | none => none
    | some first_order =>
      if first_order.order_type = OrderType.FillAndKill then
        st.cancel_order first_order.order_id
      else some st

/-- The outer `loop` of `OrderBook::match_orders`.  Each iteration: break
when a side is empty or the best levels do not cross, otherwise run the
inner loop on the two best levels, drop a level that emptied, run the FAK
sweep on both sides, and loop.  The fuel only bounds the recursion; every
iteration that loops again has removed at least one level, so
`bids.length + asks.length + 1` units always suffice. -/
def matchOrdersLoop (fuel : Nat) (st : OrderBook) :
    Option (OrderBook × List Trade) :=
  match fuel with
  | 0 => none
  | fuel + 1 =>
    match st.bids, st.asks with
    | [], _ => some (st, [])
    | _, [] => some (st, [])
    | (pB, b) :: bidsT, (pA, a) :: asksT =>
      if pB < pA then some (st, [])
      else
        match matchLevels (b.length + a.length + 1) pB pA b a st.orders with
        | none => none
        | some (b', a', idx', ts) =>
          let bids1 := if b' = [] then bidsT else (pB, b') :: bidsT
          let asks1 := if a' = [] then asksT else (pA, a') :: asksT
          let st1 : OrderBook := { bids := bids1, asks := asks1, orders := idx' }
          match fakSweepBid st1 with
          | none => none
          | some st2 =>
            match fakSweepAsk st2 with
            | none => none
            | some st3 =>
              match matchOrdersLoop fuel st3 with
              | none => none
              | some (st4, ts2) => some (st4, ts ++ ts2)

/-- `OrderBook::match_orders`. -/
def OrderBook.match_orders (self : OrderBook) : Option (OrderBook × List Trade) :=
  matchOrdersLoop (self.bids.length + self.asks.length + 1) self

/-- `OrderBook::add_order`: duplicate ids and unmarketable Fill-And-Kill
orders are rejected with no state change and no trades; otherwise the order
is pushed into its side's level, indexed, and `match_orders` runs. -/
def OrderBook.add_order (self : OrderBook) (order : Order) :
    Option (OrderBook × List Trade) :=
  if self.orders.any (fun e => e.1 == order.order_id) then
    some (self, [])
  else if order.order_type = OrderType.FillAndKill &&
      !(self.can_match order.price order.side) then
    some (self, [])
  else
    let st1 : OrderBook :=
      match order.side with
      | Side.Buy => { self with bids := insertOrderBid self.bids order.price order }
      | Side.Sell => { self with asks := insertOrderAsk self.asks order.price order }
    let st2 : OrderBook := { st1 with orders := st1.orders ++ [(order.order_id, order)] }
    st2.match_orders

/-- `OrderBook::match_order` (the modify entry point).  The Rust as written
does not compile (`Vec<Trades>` is undefined and `cancel_order` is called
while `self.orders` is borrowed); this embeds its evident meaning: look the
order up, cancel it, and re-add a clone of the *old* order.  The
`order_modify` fields are never read past the id. -/
def OrderBook.match_order (self : OrderBook) (order_modify : OrderModify) :
    Option (OrderBook × List Trade) :=
  if self.orders.all (fun e => e.1 != order_modify.order_id) then
    some (self, [])
  else
    match self.orders.find? (fun e => e.1 == order_modify.order_id) with
    | none => none
    | some e =>
      match self.cancel_order e.2.order_id with
      | none => none
      | some st1 => st1.add_order e.2

/-- `OrderBook::get_best_bid_ask`. -/
def OrderBook.get_best_bid_ask (self : OrderBook) : Option (Int × Int) :=
  match self.bids.head?, self.asks.head? with
  | some best_bid, some best_ask => some (best_bid.1, best_ask.1)
  | _, _ => none

/-- `OrderBook::orderbook_size`. -/
def OrderBook.orderbook_size (self : OrderBook) : Nat := self.orders.length

/-- States reachable from the empty book by public operations that return
normally.  An operation that panics produces no observable state and hence
no reachable successor. -/
inductive Reachable : OrderBook → Prop where
  | new : Reachable OrderBook.new
  | submit {st : OrderBook} {o : Order} {st' : OrderBook} {ts : List Trade} :
      Reachable st → st.add_order o = some (st', ts) → Reachable st'
  | cancel {st : OrderBook} {id : Nat} {st' : OrderBook} :
      Reachable st → st.cancel_order id = some st' → Reachable st'
  | modify {st : OrderBook} {m : OrderModify} {st' : OrderBook} {ts : List Trade} :
      Reachable st → st.match_order m = some (st', ts) → Reachable st'

/-- The MatchCore state invariant: no empty stored level, a well-keyed
duplicate-free index that stores exactly the resident orders, resident
orders placed at the level of their own price on the side of their own
`side` field, unique resident ids, both sides sorted in iteration order,
and an uncrossed top of book. -/
structure Inv (st : OrderBook) : Prop where
  noEmptyBid : ∀ e ∈ st.bids, e.2 ≠ []
  noEmptyAsk : ∀ e ∈ st.asks, e.2 ≠ []
  idxNodup : (idxIds st).Nodup
  idxKey : ∀ e ∈ st.orders, e.2.order_id = e.1
  bidPlace : ∀ e ∈ st.bids, ∀ o ∈ e.2, o.price = e.1 ∧ o.side = Side.Buy
  askPlace : ∀ e ∈ st.asks, ∀ o ∈ e.2, o.price = e.1 ∧ o.side = Side.Sell
  resNodup : ((residents st).map Order.order_id).Nodup
  idxRes : ∀ e ∈ st.orders, e.2 ∈ residents st
  resIdx : ∀ o ∈ residents st, (o.order_id, o) ∈ st.orders
  bidSorted : (st.bids.map Prod.fst).Pairwise (· > ·)
  askSorted : (st.asks.map Prod.fst).Pairwise (· < ·)
  notCrossed : ∀ b ∈ st.bids.head?, ∀ a ∈ st.asks.head?, b.1 < a.1

/-- S1: GTC Buy id=1 price=100 qty=10. -/
def oBuy1 : Order :=
  { order_id := 1, price := 100, remaining_quantity := 10, initial_quantity := 10,
    order_type := OrderType.GoodToCancel, side := Side.Buy }

/-- S1: GTC Sell id=2 price=100 qty=4. -/
def oSell2 : Order :=
  { order_id := 2, price := 100, remaining_quantity := 4, initial_quantity := 4,
    order_type := OrderType.GoodToCancel, side := Side.Sell }

/-- The book after submitting `oBuy1` into an empty book. -/
def stS1 : OrderBook :=
  { bids := [(100, [oBuy1])], asks := [], orders := [(1, oBuy1)] }

/-- S3: FAK Buy id=7 price=50 qty=5. -/
def oFak7 : Order :=
  { order_id := 7, price := 50, remaining_quantity := 5, initial_quantity := 5,
    order_type := OrderType.FillAndKill, side := Side.Buy }

/-- S4: resting GTC Sell id=1 price=10 qty=2. -/
def oAsk1 : Order :=
  { order_id := 1, price := 10, remaining_quantity := 2, initial_quantity := 2,
    order_type := OrderType.GoodToCancel, side := Side.Sell }

/-- The book holding only `oAsk1`. -/
def stS4 : OrderBook :=
  { bids := [], asks := [(10, [oAsk1])], orders := [(1, oAsk1)] }

/-- S4: FAK Buy id=2 price=10 qty=5. -/
def oFak2 : Order :=
  { order_id := 2, price := 10, remaining_quantity := 5, initial_quantity := 5,
    order_type := OrderType.FillAndKill, side := Side.Buy }

/-- A resting GTC Buy id=1 price=10 qty=5, used by the modify scenario. -/
def oBuy1m : Order :=
  { order_id := 1, price := 10, remaining_quantity := 5, initial_quantity := 5,
    order_type := OrderType.GoodToCancel, side := Side.Buy }

/-- The book holding only `oBuy1m`. -/
def stMod : OrderBook :=
  { bids := [(10, [oBuy1m])], asks := [], orders := [(1, oBuy1m)] }

/-- A modification of order 1 to price 20, quantity 7. -/
def modTo20 : OrderModify :=
  { order_id := 1, side := Side.Buy, price := 20, quantity := 7 }

/-- GTC Buy id=1 price=10 qty=5. -/
def oBuy10 : Order :=
  { order_id := 1, price := 10, remaining_quantity := 5, initial_quantity := 5,
    order_type := OrderType.GoodToCancel, side := Side.Buy }

/-- GTC Sell id=2 price=20 qty=5. -/
def oSell20 : Order :=
  { order_id := 2, price := 20, remaining_quantity := 5, initial_quantity := 5,
    order_type := OrderType.GoodToCancel, side := Side.Sell }

/-- The two-sided uncrossed book holding `oBuy10` and `oSell20`. -/
def stTwoSided : OrderBook :=
  { bids := [(10, [oBuy10])], asks := [(20, [oSell20])],
    orders := [(1, oBuy10), (2, oSell20)] }

end OrderbookV2

/-! ## Theorems about the venue book (`orderbook.rs`) -/

namespace Orderbook

/-- One step of the depth fold. -/
theorem applyDepthSide_cons (m : Nat → Option Nat) (e : Nat × Nat)
    (t : List (Nat × Nat)) :
    applyDepthSide m (e :: t) =
      applyDepthSide (if e.2 = 0 then mapRemove m e.1 else mapInsert m e.1 e.2) t := rfl

/-- Pointwise characterisation of the depth fold: the last occurrence of a
price in the pair list decides its final entry; prices not mentioned keep
their old entry. -/
theorem applyDepthSide_lookup (pairs : List (Nat × Nat)) (m : Nat → Option Nat)
    (p : Nat) :
    applyDepthSide m pairs p =
      match pairs.reverse.find? (fun e => e.1 == p) with
      | none => m p
      | some e => if e.2 = 0 then none else some e.2 := by
  induction pairs generalizing m with
  | nil => simp [applyDepthSide]
  | cons e t ih =>
    rw [applyDepthSide_cons, ih]
    have hrev : (e :: t).reverse = t.reverse ++ [e] := by simp
    rw [hrev, List.find?_append]
    cases hf : t.reverse.find? (fun x => x.1 == p) with
    | some e' => simp [Option.or]
    | none =>
      simp only [Option.or]
      by_cases hp : e.1 = p
      · subst hp
        simp only [List.find?, beq_self_eq_true]
        by_cases hz : e.2 = 0
        · simp [hz, mapRemove]
        · simp [hz, mapInsert]
      · have hne : (e.1 == p) = false := beq_eq_false_iff_ne.mpr hp
        have hpe : p ≠ e.1 := fun h => hp h.symm
        simp only [List.find?, hne]
        by_cases hz : e.2 = 0
        · simp [hz, mapRemove, hpe]
        · simp [hz, mapInsert, hpe]

end Orderbook

namespace Orderbook

/-- C6: `apply_depth` drops a stale update (`seq ≤ last_update_id`) with no
state change at all; a fresh update removes every price whose last listed
quantity is zero, upserts every price whose last listed quantity is
positive, leaves unmentioned prices untouched, and sets `last_update_id` to
the update's sequence. -/
theorem update_depth_spec (st : OrderBook) (u : DepthUpdate) :
    (u.last_update_id ≤ st.last_update_id → st.update_depth u = st) ∧
    (st.last_update_id < u.last_update_id →
      (st.update_depth u).last_update_id = u.last_update_id ∧
      (∀ p, (st.update_depth u).bids p =
        match u.bids.reverse.find? (fun e => e.1 == p) with
        | none => st.bids p
        | some e => if e.2 = 0 then none else some e.2) ∧
      (∀ p, (st.update_depth u).asks p =
        match u.asks.reverse.find? (fun e => e.1 == p) with
        | none => st.asks p
        | some e => if e.2 = 0 then none else some e.2)) := by
  constructor
  · intro h
    simp [OrderBook.update_depth, h]
  · intro h
    have hn : ¬ u.last_update_id ≤ st.last_update_id := Nat.not_le_of_lt h
    refine ⟨?_, ?_, ?_⟩
    · simp [OrderBook.update_depth, hn]
    · intro p
      simp only [OrderBook.update_depth, hn, if_false]
      exact applyDepthSide_lookup u.bids st.bids p
    · intro p
      simp only [OrderBook.update_depth, hn, if_false]
      exact applyDepthSide_lookup u.asks st.asks p

/-- Witness for `update_depth_spec`: the S6 stale drop and an S7-style fresh
update with a zero-quantity removal, an upsert, and an untouched price. -/
theorem update_depth_spec_witness :
    stS6.update_depth uD99 = stS6 ∧
    (stS6.update_depth uD101).last_update_id = 101 ∧
    (stS6.update_depth uD101).bids 10 = none ∧
    (stS6.update_depth uD101).bids 9 = some 2 ∧
    (stS6.update_depth uD101).bids 7 = stS6.bids 7 := by
  refine ⟨(update_depth_spec stS6 uD99).1 (by decide), ?_, ?_, ?_, ?_⟩
  · exact ((update_depth_spec stS6 uD101).2 (by decide)).1
  · exact (((update_depth_spec stS6 uD101).2 (by decide)).2.1 10).trans rfl
  · exact (((update_depth_spec stS6 uD101).2 (by decide)).2.1 9).trans rfl
  · exact (((update_depth_spec stS6 uD101).2 (by decide)).2.1 7).trans rfl

/-- C10: `apply_ticker` overwrites exactly the two entries at the update's
bid and ask prices, leaves every other entry on both sides unchanged, and
neither consults nor advances `last_update_id`. -/
theorem update_book_ticker_spec (st : OrderBook) (u : BookTickerUpdate) :
    (st.update_book_ticker u).bids u.best_bid_price = some u.best_bid_quantity ∧
    (st.update_book_ticker u).asks u.best_ask_price = some u.best_ask_quantity ∧
    (∀ p, p ≠ u.best_bid_price → (st.update_book_ticker u).bids p = st.bids p) ∧
    (∀ p, p ≠ u.best_ask_price → (st.update_book_ticker u).asks p = st.asks p) ∧
    (st.update_book_ticker u).last_update_id = st.last_update_id := by
  refine ⟨?_, ?_, ?_, ?_, rfl⟩
  · simp [OrderBook.update_book_ticker, mapInsert]
  · simp [OrderBook.update_book_ticker, mapInsert]
  · intro p hp
    simp [OrderBook.update_book_ticker, mapInsert, hp]
  · intro p hp
    simp [OrderBook.update_book_ticker, mapInsert, hp]

/-- Witness for `update_book_ticker_spec` at the concrete ticker `uT1`. -/
theorem update_book_ticker_spec_witness :
    stT1.bids 10 = some 3 ∧ stT1.asks 20 = some 4 ∧
    stT1.bids 11 = (OrderBook.new "BNBUSDT").bids 11 ∧
    stT1.asks 21 = (OrderBook.new "BNBUSDT").asks 21 ∧
    stT1.last_update_id = (OrderBook.new "BNBUSDT").last_update_id := by
  have h := update_book_ticker_spec (OrderBook.new "BNBUSDT") uT1
  exact ⟨h.1, h.2.1, h.2.2.1 11 (by decide), h.2.2.2.1 21 (by decide), h.2.2.2.2⟩

/-- Counterexample to C7 as stated: a zero-quantity ticker update is applied
verbatim by `update_book_ticker`, so the reachable state `stT0` stores a
zero-quantity entry at price 10. -/
theorem ticker_zero_qty_reachable :
    ¬ (∀ st : OrderBook, Reachable st → NoZeroQty st) := by
  intro h
  have hr : Reachable stT0 := Reachable.ticker uT0 (Reachable.new "BNBUSDT")
  have hz : stT0.bids 10 = some 0 := rfl
  exact (h stT0 hr).1 10 0 hz rfl

/-- `update_depth` preserves the no-zero-quantity invariant. -/
theorem update_depth_noZero (st : OrderBook) (u : DepthUpdate)
    (h : NoZeroQty st) : NoZeroQty (st.update_depth u) := by
  by_cases hs : u.last_update_id ≤ st.last_update_id
  · simpa [OrderBook.update_depth, hs] using h
  · have h2 := (update_depth_spec st u).2 (Nat.lt_of_not_le hs)
    constructor
    · intro p q hpq
      have := (h2.2.1 p).symm.trans hpq
      revert this
      cases hf : u.bids.reverse.find? (fun e => e.1 == p) with
      | none => exact fun hh => h.1 p q hh
      | some e =>
        by_cases hz : e.2 = 0
        · simp [hz]
        · intro hh
          simp only [hz, if_false] at hh
          cases hh
          exact hz
    · intro p q hpq
      have := (h2.2.2 p).symm.trans hpq
      revert this
      cases hf : u.asks.reverse.find? (fun e => e.1 == p) with
      | none => exact fun hh => h.2 p q hh
      | some e =>
        by_cases hz : e.2 = 0
        · simp [hz]
        · intro hh
          simp only [hz, if_false] at hh
          cases hh
          exact hz

/-- C7, amended: every state reachable by `apply_depth` calls and
`apply_ticker` calls whose quantities are non-zero satisfies the
no-zero-quantity invariant.  (`apply_ticker` with a zero quantity violates
it, see `ticker_zero_qty_reachable`.) -/
theorem reachablePos_noZero (st : OrderBook) (h : ReachablePos st) :
    NoZeroQty st := by
  induction h with
  | new symbol =>
    exact ⟨fun p q hpq => (by cases hpq), fun p q hpq => (by cases hpq)⟩
  | ticker u _ hb ha ih =>
    constructor
    · intro p q hpq
      by_cases hp : p = u.best_bid_price
      · subst hp
        have : some u.best_bid_quantity = some q := by
          simpa [OrderBook.update_book_ticker, mapInsert] using hpq
        cases this
        exact hb
      · exact ih.1 p q (by simpa [OrderBook.update_book_ticker, mapInsert, hp] using hpq)
    · intro p q hpq
      by_cases hp : p = u.best_ask_price
      · subst hp
        have : some u.best_ask_quantity = some q := by
          simpa [OrderBook.update_book_ticker, mapInsert] using hpq
        cases this
        exact ha
      · exact ih.2 p q (by simpa [OrderBook.update_book_ticker, mapInsert, hp] using hpq)
  | depth u _ ih => exact update_depth_noZero _ u ih

/-- Witness for `reachablePos_noZero` at a concrete reachable state. -/
theorem reachablePos_noZero_witness :
    ReachablePos stT1 ∧ NoZeroQty stT1 := by
  have hr : ReachablePos stT1 :=
    ReachablePos.ticker uT1 (ReachablePos.new "BNBUSDT") (by decide) (by decide)
  exact ⟨hr, reachablePos_noZero stT1 hr⟩

end Orderbook

/-! ## Theorems about the matching engine (`orderbookv2.rs`) -/

namespace OrderbookV2

/-- C4: submitting a Fill-And-Kill order for which `can_match` is false
returns no trades and leaves the entire book (bids, asks, index)
unchanged — the order is never inserted. -/
theorem add_order_fak_unmarketable (st : OrderBook) (o : Order)
    (hty : o.order_type = OrderType.FillAndKill)
    (hcm : st.can_match o.price o.side = false) :
    st.add_order o = some (st, []) := by
  unfold OrderBook.add_order
  by_cases hdup : st.orders.any (fun e => e.1 == o.order_id)
  · simp [hdup]
  · simp [hdup, hty, hcm]

/-- Witness for `add_order_fak_unmarketable`: the S3 scenario, FAK Buy id=7
price=50 qty=5 into an empty book. -/
theorem add_order_fak_unmarketable_witness :
    oFak7.order_type = OrderType.FillAndKill ∧
    OrderBook.new.can_match oFak7.price oFak7.side = false ∧
    OrderBook.new.add_order oFak7 = some (OrderBook.new, []) :=
  ⟨rfl, rfl, add_order_fak_unmarketable OrderBook.new oFak7 rfl rfl⟩

/-- C1 (code bug): on the S1 scenario the code aborts instead of returning
the trade `{bid:{1,100,4}, ask:{2,100,4}}`.  The first submit rests order 1;
the second submit fills order 2, pops it, and then builds the trade from
`front()` of the now-empty ask level, so `unwrap` panics (`none`). -/
theorem s1_simple_cross_aborts :
    OrderBook.new.add_order oBuy1 = some (stS1, []) ∧
    stS1.add_order oSell2 = none := ⟨rfl, rfl⟩

/-- C3 (code bug): `cancel_order` on an id absent from the index panics
(`panic!("Order not found")`, modelled as `none`) instead of returning
`NotFound` with no state change; on a present id it removes the order from
its level and the index and drops the emptied level. -/
theorem cancel_missing_panics :
    OrderBook.new.cancel_order 42 = none ∧
    stS1.cancel_order 1 = some OrderBook.new := ⟨rfl, rfl⟩

/-- C5 (code bug): on the S4 scenario — FAK Buy id=2 price=10 qty=5 against
the resting ask id=1 price=10 qty=2 — the submit aborts inside the matching
pass (trade built from `front()` of the emptied ask level), so it never
returns, let alone with order 2 absent from the index. -/
theorem s4_fak_partial_aborts :
    OrderBook.new.add_order oAsk1 = some (stS4, []) ∧
    stS4.add_order oFak2 = none := ⟨rfl, rfl⟩

/-- C2 (code bug): `match_order` re-submits a clone of the *old* order, so
modifying order 1 (resting at price 10 qty 5) to price 20 qty 7 leaves the
book exactly as it was: the level at price 10 still holds order 1 with
quantity 5 and no level at price 20 exists. -/
theorem modify_ignores_modification :
    stMod.match_order modTo20 = some (stMod, []) ∧
    stMod.bids = [(10, [oBuy1m])] := ⟨rfl, rfl⟩

end OrderbookV2
namespace OrderbookV2

/-- The inner loop of `match_orders` never returns when entered with two
non-empty levels: every iteration pops at least one filled order and then
reads that side's `front().unwrap()` for the trade, which panics once a
level empties — and a level must eventually empty. -/
theorem matchLevels_nonempty_none (pB pA : Int) :
    ∀ (fuel : Nat) (b a : List Order) (idx : List (Nat × Order)),
      b ≠ [] → a ≠ [] → matchLevels fuel pB pA b a idx = none := by
  intro fuel
  induction fuel with
  | zero => intro b a idx _ _; rfl
  | succ n ih =>
    intro b a idx hb ha
    cases b with
    | nil => exact absurd rfl hb
    | cons bid bt =>
      cases a with
      | nil => exact absurd rfl ha
      | cons ask at' =>
        simp only [matchLevels]
        by_cases h1 : bid.remaining_quantity - min bid.remaining_quantity ask.remaining_quantity = 0 <;>
          by_cases h2 : ask.remaining_quantity - min bid.remaining_quantity ask.remaining_quantity = 0 <;>
            cases bt <;> cases at' <;>
              simp [h1, h2, ih]

end OrderbookV2
namespace OrderbookV2

/-- Non-crossed top of book, stated through the heads of the two sides. -/
theorem matchOrdersLoop_some_of_inv {st st' : OrderBook} {ts : List Trade} {n : Nat}
    (h : matchOrdersLoop (n + 1) st = some (st', ts))
    (hne_b : ∀ e ∈ st.bids, e.2 ≠ []) (hne_a : ∀ e ∈ st.asks, e.2 ≠ []) :
    st' = st ∧ ts = [] ∧
      ∀ b ∈ st.bids.head?, ∀ a ∈ st.asks.head?, b.1 < a.1 := by
  obtain ⟨bids, asks, orders⟩ := st
  cases bids with
  | nil =>
    simp only [matchOrdersLoop] at h
    cases h
    exact ⟨rfl, rfl, by simp⟩
  | cons hdB bidsT =>
    cases asks with
    | nil =>
      simp only [matchOrdersLoop] at h
      cases h
      exact ⟨rfl, rfl, by simp⟩
    | cons hdA asksT =>
      obtain ⟨pB, b⟩ := hdB
      obtain ⟨pA, a⟩ := hdA
      simp only [matchOrdersLoop] at h
      by_cases hlt : pB < pA
      · rw [if_pos hlt] at h
        cases h
        refine ⟨rfl, rfl, ?_⟩
        intro x hx y hy
        simp only [List.head?_cons, Option.mem_def, Option.some.injEq] at hx hy
        subst hx; subst hy
        exact hlt
      · rw [if_neg hlt] at h
        have hbne : b ≠ [] := hne_b (pB, b) (List.mem_cons_self _ _)
        have hane : a ≠ [] := hne_a (pA, a) (List.mem_cons_self _ _)
        rw [matchLevels_nonempty_none pB pA _ b a orders hbne hane] at h
        cases h

end OrderbookV2
namespace OrderbookV2

/-- Any entry-wise property stable under pushing `o` to the back of a level
at key `p` survives `insertOrderBid`. -/
theorem insertOrderBid_forall (p : Int) (o : Order) (Q : Level → Prop)
    (ls : List Level) (h : ∀ e ∈ ls, Q e) (hnew : Q (p, [o]))
    (hext : ∀ l, Q (p, l) → Q (p, l ++ [o])) :
    ∀ e ∈ insertOrderBid ls p o, Q e := by
  induction ls with
  | nil =>
    intro e he
    simp only [insertOrderBid, List.mem_singleton] at he
    exact he ▸ hnew
  | cons hd t ih =>
    obtain ⟨k, l⟩ := hd
    simp only [insertOrderBid]
    by_cases h1 : p > k
    · rw [if_pos h1]
      intro e he
      rcases List.mem_cons.mp he with rfl | he' <;> [exact hnew; exact h e he']
    · rw [if_neg h1]
      by_cases h2 : p = k
      · rw [if_pos h2]
        intro e he
        rcases List.mem_cons.mp he with rfl | he'
        · subst h2
          exact hext l (h (p, l) (List.mem_cons_self _ _))
        · exact h e (List.mem_cons_of_mem _ he')
      · rw [if_neg h2]
        intro e he
        rcases List.mem_cons.mp he with rfl | he'
        · exact h (k, l) (List.mem_cons_self _ _)
        · exact ih (fun e' he' => h e' (List.mem_cons_of_mem _ he')) e he'

/-- `insertOrderAsk` version of `insertOrderBid_forall`. -/
theorem insertOrderAsk_forall (p : Int) (o : Order) (Q : Level → Prop)
    (ls : List Level) (h : ∀ e ∈ ls, Q e) (hnew : Q (p, [o]))
    (hext : ∀ l, Q (p, l) → Q (p, l ++ [o])) :
    ∀ e ∈ insertOrderAsk ls p o, Q e := by
  induction ls with
  | nil =>
    intro e he
    simp only [insertOrderAsk, List.mem_singleton] at he
    exact he ▸ hnew
  | cons hd t ih =>
    obtain ⟨k, l⟩ := hd
    simp only [insertOrderAsk]
    by_cases h1 : p < k
    · rw [if_pos h1]
      intro e he
      rcases List.mem_cons.mp he with rfl | he' <;> [exact hnew; exact h e he']
    · rw [if_neg h1]
      by_cases h2 : p = k
      · rw [if_pos h2]
        intro e he
        rcases List.mem_cons.mp he with rfl | he'
        · subst h2
          exact hext l (h (p, l) (List.mem_cons_self _ _))
        · exact h e (List.mem_cons_of_mem _ he')
      · rw [if_neg h2]
        intro e he
        rcases List.mem_cons.mp he with rfl | he'
        · exact h (k, l) (List.mem_cons_self _ _)
        · exact ih (fun e' he' => h e' (List.mem_cons_of_mem _ he')) e he'

/-- Inserting an order adds exactly that order to the side's resting
orders, up to permutation. -/
theorem insertOrderBid_flatten_perm (p : Int) (o : Order) (ls : List Level) :
    ((insertOrderBid ls p o).map Prod.snd).flatten.Perm
      (o :: (ls.map Prod.snd).flatten) := by
  induction ls with
  | nil => simp [insertOrderBid]
  | cons hd t ih =>
    obtain ⟨k, l⟩ := hd
    simp only [insertOrderBid]
    by_cases h1 : p > k
    · rw [if_pos h1]
      simp
    · rw [if_neg h1]
      by_cases h2 : p = k
      · rw [if_pos h2]
        simp only [List.map_cons, List.flatten_cons, List.append_assoc,
          List.singleton_append]
        exact List.perm_middle
      · rw [if_neg h2]
        simp only [List.map_cons, List.flatten_cons]
        exact ((ih.append_left l).trans List.perm_middle)

/-- `insertOrderAsk` version of `insertOrderBid_flatten_perm`. -/
theorem insertOrderAsk_flatten_perm (p : Int) (o : Order) (ls : List Level) :
    ((insertOrderAsk ls p o).map Prod.snd).flatten.Perm
      (o :: (ls.map Prod.snd).flatten) := by
  induction ls with
  | nil => simp [insertOrderAsk]
  | cons hd t ih =>
    obtain ⟨k, l⟩ := hd
    simp only [insertOrderAsk]
    by_cases h1 : p < k
    · rw [if_pos h1]
      simp
    · rw [if_neg h1]
      by_cases h2 : p = k
      · rw [if_pos h2]
        simp only [List.map_cons, List.flatten_cons, List.append_assoc,
          List.singleton_append]
        exact List.perm_middle
      · rw [if_neg h2]
        simp only [List.map_cons, List.flatten_cons]
        exact ((ih.append_left l).trans List.perm_middle)

/-- Keys after insertion are the new key or old keys. -/
theorem insertOrderBid_keys_mem (p : Int) (o : Order) (ls : List Level) :
    ∀ k ∈ (insertOrderBid ls p o).map Prod.fst, k = p ∨ k ∈ ls.map Prod.fst := by
  induction ls with
  | nil => simp [insertOrderBid]
  | cons hd t ih =>
    obtain ⟨k0, l⟩ := hd
    intro k hk
    simp only [insertOrderBid] at hk
    by_cases h1 : p > k0
    · rw [if_pos h1] at hk
      simp only [List.map_cons, List.mem_cons] at hk ⊢
      tauto
    · rw [if_neg h1] at hk
      by_cases h2 : p = k0
      · rw [if_pos h2] at hk
        simp only [List.map_cons, List.mem_cons] at hk ⊢
        tauto
      · rw [if_neg h2] at hk
        simp only [List.map_cons, List.mem_cons] at hk ⊢
        rcases hk with rfl | hk'
        · tauto
        · rcases ih k hk' with rfl | hmem <;> tauto

/-- `insertOrderAsk` version of `insertOrderBid_keys_mem`. -/
theorem insertOrderAsk_keys_mem (p : Int) (o : Order) (ls : List Level) :
    ∀ k ∈ (insertOrderAsk ls p o).map Prod.fst, k = p ∨ k ∈ ls.map Prod.fst := by
  induction ls with
  | nil => simp [insertOrderAsk]
  | cons hd t ih =>
    obtain ⟨k0, l⟩ := hd
    intro k hk
    simp only [insertOrderAsk] at hk
    by_cases h1 : p < k0
    · rw [if_pos h1] at hk
      simp only [List.map_cons, List.mem_cons] at hk ⊢
      tauto
    · rw [if_neg h1] at hk
      by_cases h2 : p = k0
      · rw [if_pos h2] at hk
        simp only [List.map_cons, List.mem_cons] at hk ⊢
        tauto
      · rw [if_neg h2] at hk
        simp only [List.map_cons, List.mem_cons] at hk ⊢
        rcases hk with rfl | hk'
        · tauto
        · rcases ih k hk' with rfl | hmem <;> tauto

/-- Sorted insertion keeps the bids' keys strictly descending. -/
theorem insertOrderBid_sorted (p : Int) (o : Order) (ls : List Level)
    (h : (ls.map Prod.fst).Pairwise (· > ·)) :
    ((insertOrderBid ls p o).map Prod.fst).Pairwise (· > ·) := by
  induction ls with
  | nil => simp [insertOrderBid]
  | cons hd t ih =>
    obtain ⟨k0, l⟩ := hd
    simp only [List.map_cons, List.pairwise_cons] at h
    simp only [insertOrderBid]
    by_cases h1 : p > k0
    · rw [if_pos h1]
      simp only [List.map_cons, List.pairwise_cons]
      refine ⟨?_, h⟩
      intro x hx
      rcases List.mem_cons.mp hx with rfl | hx'
      · exact h1
      · exact lt_trans (h.1 x hx') h1
    · rw [if_neg h1]
      by_cases h2 : p = k0
      · rw [if_pos h2]
        simp only [List.map_cons, List.pairwise_cons]
        exact h
      · rw [if_neg h2]
        simp only [List.map_cons, List.pairwise_cons]
        constructor
        · intro x hx
          rcases insertOrderBid_keys_mem p o t x hx with rfl | hmem
          · exact lt_of_le_of_ne (not_lt.mp h1) h2
          · exact h.1 x hmem
        · exact ih h.2

/-- Sorted insertion keeps the asks' keys strictly ascending. -/
theorem insertOrderAsk_sorted (p : Int) (o : Order) (ls : List Level)
    (h : (ls.map Prod.fst).Pairwise (· < ·)) :
    ((insertOrderAsk ls p o).map Prod.fst).Pairwise (· < ·) := by
  induction ls with
  | nil => simp [insertOrderAsk]
  | cons hd t ih =>
    obtain ⟨k0, l⟩ := hd
    simp only [List.map_cons, List.pairwise_cons] at h
    simp only [insertOrderAsk]
    by_cases h1 : p < k0
    · rw [if_pos h1]
      simp only [List.map_cons, List.pairwise_cons]
      refine ⟨?_, h⟩
      intro x hx
      rcases List.mem_cons.mp hx with rfl | hx'
      · exact h1
      · exact lt_trans h1 (h.1 x hx')
    · rw [if_neg h1]
      by_cases h2 : p = k0
      · rw [if_pos h2]
        simp only [List.map_cons, List.pairwise_cons]
        exact h
      · rw [if_neg h2]
        simp only [List.map_cons, List.pairwise_cons]
        constructor
        · intro x hx
          rcases insertOrderAsk_keys_mem p o t x hx with rfl | hmem
          · exact lt_of_le_of_ne (not_lt.mp h1) (fun he => h2 he.symm)
          · exact h.1 x hmem
        · exact ih h.2

end OrderbookV2
namespace OrderbookV2

/-- Removal keeps every stored level non-empty. -/
theorem removeOrderAt_noEmpty (p : Int) (id : Nat) (ls : List Level)
    (h : ∀ e ∈ ls, e.2 ≠ []) : ∀ e ∈ removeOrderAt ls p id, e.2 ≠ [] := by
  induction ls with
  | nil => simp [removeOrderAt]
  | cons hd t ih =>
    obtain ⟨k, l⟩ := hd
    simp only [removeOrderAt]
    by_cases hk : k = p
    · rw [if_pos hk]
      by_cases hl : l.filter (fun o => o.order_id != id) = []
      · rw [if_pos hl]
        exact fun e he => h e (List.mem_cons_of_mem _ he)
      · rw [if_neg hl]
        intro e he
        rcases List.mem_cons.mp he with rfl | he'
        · exact hl
        · exact h e (List.mem_cons_of_mem _ he')
    · rw [if_neg hk]
      intro e he
      rcases List.mem_cons.mp he with rfl | he'
      · exact h (k, l) (List.mem_cons_self _ _)
      · exact ih (fun e' he' => h e' (List.mem_cons_of_mem _ he')) e he'

/-- Removal preserves any entry-wise property of the orders at a level. -/
theorem removeOrderAt_place (p : Int) (id : Nat) (P : Order → Int → Prop)
    (ls : List Level) (h : ∀ e ∈ ls, ∀ o ∈ e.2, P o e.1) :
    ∀ e ∈ removeOrderAt ls p id, ∀ o ∈ e.2, P o e.1 := by
  induction ls with
  | nil => simp [removeOrderAt]
  | cons hd t ih =>
    obtain ⟨k, l⟩ := hd
    simp only [removeOrderAt]
    by_cases hk : k = p
    · rw [if_pos hk]
      by_cases hl : l.filter (fun o => o.order_id != id) = []
      · rw [if_pos hl]
        exact fun e he => h e (List.mem_cons_of_mem _ he)
      · rw [if_neg hl]
        intro e he
        rcases List.mem_cons.mp he with rfl | he'
        · exact fun o ho => h (k, l) (List.mem_cons_self _ _) o
            (List.mem_of_mem_filter ho)
        · exact h e (List.mem_cons_of_mem _ he')
    · rw [if_neg hk]
      intro e he
      rcases List.mem_cons.mp he with rfl | he'
      · exact h (k, l) (List.mem_cons_self _ _)
      · exact ih (fun e' he' => h e' (List.mem_cons_of_mem _ he')) e he'

/-- Removal keeps the side's resting orders a sublist of the old ones. -/
theorem removeOrderAt_flatten_sublist (p : Int) (id : Nat) (ls : List Level) :
    ((removeOrderAt ls p id).map Prod.snd).flatten.Sublist
      ((ls.map Prod.snd).flatten) := by
  induction ls with
  | nil => simp [removeOrderAt]
  | cons hd t ih =>
    obtain ⟨k, l⟩ := hd
    simp only [removeOrderAt]
    by_cases hk : k = p
    · rw [if_pos hk]
      by_cases hl : l.filter (fun o => o.order_id != id) = []
      · rw [if_pos hl]
        simp only [List.map_cons, List.flatten_cons]
        exact (List.sublist_append_right l _).trans
          (List.Sublist.append_right (List.Sublist.refl _) _) |>.trans
          (List.Sublist.refl _)
      · rw [if_neg hl]
        simp only [List.map_cons, List.flatten_cons]
        exact List.Sublist.append (List.filter_sublist l) (List.Sublist.refl _)
    · rw [if_neg hk]
      simp only [List.map_cons, List.flatten_cons]
      exact List.Sublist.append (List.Sublist.refl _) ih

/-- Removal keeps the side's level keys a sublist of the old ones. -/
theorem removeOrderAt_keys_sublist (p : Int) (id : Nat) (ls : List Level) :
    ((removeOrderAt ls p id).map Prod.fst).Sublist (ls.map Prod.fst) := by
  induction ls with
  | nil => simp [removeOrderAt]
  | cons hd t ih =>
    obtain ⟨k, l⟩ := hd
    simp only [removeOrderAt]
    by_cases hk : k = p
    · rw [if_pos hk]
      by_cases hl : l.filter (fun o => o.order_id != id) = []
      · rw [if_pos hl]
        exact (List.Sublist.refl _).cons _
      · rw [if_neg hl]
        simp only [List.map_cons]
        exact (List.Sublist.refl _).cons₂ _
    · rw [if_neg hk]
      simp only [List.map_cons]
      exact ih.cons₂ _

/-- An order with a different id survives the removal. -/
theorem removeOrderAt_mem (p : Int) (id : Nat) (ls : List Level)
    (o : Order) (ho : o ∈ (ls.map Prod.snd).flatten) (hid : o.order_id ≠ id) :
    o ∈ ((removeOrderAt ls p id).map Prod.snd).flatten := by
  induction ls with
  | nil => simp [removeOrderAt] at ho
  | cons hd t ih =>
    obtain ⟨k, l⟩ := hd
    simp only [List.map_cons, List.flatten_cons, List.mem_append] at ho
    simp only [removeOrderAt]
    by_cases hk : k = p
    · rw [if_pos hk]
      by_cases hl : l.filter (fun o => o.order_id != id) = []
      · rw [if_pos hl]
        rcases ho with hol | hot
        · exfalso
          have : o ∈ l.filter (fun o => o.order_id != id) :=
            List.mem_filter.mpr ⟨hol, by simpa using hid⟩
          rw [hl] at this
          cases this
        · exact hot
      · rw [if_neg hl]
        simp only [List.map_cons, List.flatten_cons, List.mem_append]
        rcases ho with hol | hot
        · exact Or.inl (List.mem_filter.mpr ⟨hol, by simpa using hid⟩)
        · exact Or.inr hot
    · rw [if_neg hk]
      simp only [List.map_cons, List.flatten_cons, List.mem_append]
      rcases ho with hol | hot
      · exact Or.inl hol
      · exact Or.inr (ih hot)

/-- After the removal, no order with the removed id rests at a level keyed
`p`, provided levels hold orders of their own price and keys are unique. -/
theorem removeOrderAt_removed (p : Int) (id : Nat) (ls : List Level)
    (hkeys : (ls.map Prod.fst).Nodup)
    (hplace : ∀ e ∈ ls, ∀ o ∈ e.2, o.price = e.1) :
    ∀ o ∈ ((removeOrderAt ls p id).map Prod.snd).flatten,
      o.order_id = id → o.price ≠ p := by
  induction ls with
  | nil => simp [removeOrderAt]
  | cons hd t ih =>
    obtain ⟨k, l⟩ := hd
    simp only [List.map_cons, List.nodup_cons] at hkeys
    simp only [removeOrderAt]
    by_cases hk : k = p
    · rw [if_pos hk]
      subst hk
      have hnotk : ∀ o ∈ (t.map Prod.snd).flatten, o.price ≠ k := by
        intro o hot
        simp only [List.mem_flatten, List.mem_map] at hot
        obtain ⟨l', ⟨e', he', rfl⟩, hol'⟩ := hot
        have := hplace e' (List.mem_cons_of_mem _ he') o hol'
        rw [this]
        intro hh
        exact hkeys.1 (hh ▸ List.mem_map_of_mem Prod.fst he')
      by_cases hl : l.filter (fun o => o.order_id != id) = []
      · rw [if_pos hl]
        intro o hot _
        exact hnotk o hot
      · rw [if_neg hl]
        simp only [List.map_cons, List.flatten_cons, List.mem_append]
        intro o ho hoid
        rcases ho with hol | hot
        · exfalso
          have := (List.mem_filter.mp hol).2
          simp [hoid] at this
        · exact hnotk o hot
    · rw [if_neg hk]
      simp only [List.map_cons, List.flatten_cons, List.mem_append]
      intro o ho hoid
      rcases ho with hol | hot
      · have := hplace (k, l) (List.mem_cons_self _ _) o hol
        rw [this]
        exact hk
      · exact ih hkeys.2 (fun e he => hplace e (List.mem_cons_of_mem _ he)) o hot hoid

end OrderbookV2
namespace OrderbookV2

/-- Fresh resident ids: an id absent from the index is absent from the
resident orders. -/
theorem not_resident_of_not_idx {st : OrderBook} (inv : Inv st) {id : Nat}
    (hid : id ∉ idxIds st) : ∀ r ∈ residents st, r.order_id ≠ id := by
  intro r hr heq
  exact hid (heq ▸ List.mem_map_of_mem Prod.fst (inv.resIdx r hr))

/-- Inserting a fresh buy order preserves the invariant, given the
resulting top of book is uncrossed. -/
theorem inv_insert_buy {st : OrderBook} {o : Order} (inv : Inv st)
    (hside : o.side = Side.Buy) (hid : o.order_id ∉ idxIds st)
    (hnc : ∀ b ∈ (insertOrderBid st.bids o.price o).head?,
      ∀ a ∈ st.asks.head?, b.1 < a.1) :
    Inv { bids := insertOrderBid st.bids o.price o, asks := st.asks,
          orders := st.orders ++ [(o.order_id, o)] } := by
  have hperm : (((insertOrderBid st.bids o.price o).map Prod.snd).flatten ++
      askOrders st).Perm (o :: residents st) := by
    have h1 := insertOrderBid_flatten_perm o.price o st.bids
    exact (h1.append_right (askOrders st)).trans (List.Perm.refl _)
  have hfresh : ∀ r ∈ residents st, r.order_id ≠ o.order_id :=
    not_resident_of_not_idx inv hid
  refine ⟨?_, ?_, ?_, ?_, ?_, ?_, ?_, ?_, ?_, ?_, ?_, ?_⟩
  · exact insertOrderBid_forall o.price o (fun e => e.2 ≠ []) st.bids
      inv.noEmptyBid (by simp) (by simp)
  · exact inv.noEmptyAsk
  · show ((st.orders ++ [(o.order_id, o)]).map Prod.fst).Nodup
    rw [List.map_append]
    rw [List.nodup_append]
    exact ⟨inv.idxNodup, List.nodup_singleton _, by
      intro x hx hx'
      simp only [List.map_cons, List.map_nil, List.mem_singleton] at hx'
      exact hid (hx' ▸ hx)⟩
  · intro e he
    rcases List.mem_append.mp he with h1 | h1
    · exact inv.idxKey e h1
    · simp only [List.mem_singleton] at h1
      subst h1
      rfl
  · exact insertOrderBid_forall o.price o
      (fun e => ∀ o' ∈ e.2, o'.price = e.1 ∧ o'.side = Side.Buy) st.bids
      inv.bidPlace
      (by intro o' ho'; simp only [List.mem_singleton] at ho'; subst ho'; exact ⟨rfl, hside⟩)
      (by
        intro l hl o' ho'
        rcases List.mem_append.mp ho' with h1 | h1
        · exact hl o' h1
        · simp only [List.mem_singleton] at h1
          subst h1
          exact ⟨rfl, hside⟩)
  · exact inv.askPlace
  · show ((((insertOrderBid st.bids o.price o).map Prod.snd).flatten ++
      askOrders st).map Order.order_id).Nodup
    rw [(hperm.map Order.order_id).nodup_iff]
    simp only [List.map_cons, List.nodup_cons]
    refine ⟨?_, inv.resNodup⟩
    intro hmem
    simp only [List.mem_map] at hmem
    obtain ⟨r, hr, hreq⟩ := hmem
    exact hfresh r hr hreq
  · intro e he
    have hmem : e.2 ∈ ((insertOrderBid st.bids o.price o).map Prod.snd).flatten ++
        askOrders st := by
      rw [hperm.mem_iff]
      rcases List.mem_append.mp he with h1 | h1
      · exact List.mem_cons_of_mem _ (inv.idxRes e h1)
      · simp only [List.mem_singleton] at h1
        subst h1
        exact List.mem_cons_self _ _
    exact hmem
  · intro r hr
    have hr' : r ∈ o :: residents st := hperm.mem_iff.mp hr
    rcases List.mem_cons.mp hr' with rfl | hr''
    · exact List.mem_append_right _ (List.mem_singleton_self _)
    · exact List.mem_append_left _ (inv.resIdx r hr'')
  · exact insertOrderBid_sorted o.price o st.bids inv.bidSorted
  · exact inv.askSorted
  · exact hnc

/-- Inserting a fresh sell order preserves the invariant, given the
resulting top of book is uncrossed. -/
theorem inv_insert_sell {st : OrderBook} {o : Order} (inv : Inv st)
    (hside : o.side = Side.Sell) (hid : o.order_id ∉ idxIds st)
    (hnc : ∀ b ∈ st.bids.head?,
      ∀ a ∈ (insertOrderAsk st.asks o.price o).head?, b.1 < a.1) :
    Inv { bids := st.bids, asks := insertOrderAsk st.asks o.price o,
          orders := st.orders ++ [(o.order_id, o)] } := by
  have hperm : (bidOrders st ++
      ((insertOrderAsk st.asks o.price o).map Prod.snd).flatten).Perm
      (o :: residents st) := by
    have h1 := insertOrderAsk_flatten_perm o.price o st.asks
    exact ((h1.append_left (bidOrders st))).trans List.perm_middle
  have hfresh : ∀ r ∈ residents st, r.order_id ≠ o.order_id :=
    not_resident_of_not_idx inv hid
  refine ⟨?_, ?_, ?_, ?_, ?_, ?_, ?_, ?_, ?_, ?_, ?_, ?_⟩
  · exact inv.noEmptyBid
  · exact insertOrderAsk_forall o.price o (fun e => e.2 ≠ []) st.asks
      inv.noEmptyAsk (by simp) (by simp)
  · show ((st.orders ++ [(o.order_id, o)]).map Prod.fst).Nodup
    rw [List.map_append]
    rw [List.nodup_append]
    exact ⟨inv.idxNodup, List.nodup_singleton _, by
      intro x hx hx'
      simp only [List.map_cons, List.map_nil, List.mem_singleton] at hx'
      exact hid (hx' ▸ hx)⟩
  · intro e he
    rcases List.mem_append.mp he with h1 | h1
    · exact inv.idxKey e h1
    · simp only [List.mem_singleton] at h1
      subst h1
      rfl
  · exact inv.bidPlace
  · exact insertOrderAsk_forall o.price o
      (fun e => ∀ o' ∈ e.2, o'.price = e.1 ∧ o'.side = Side.Sell) st.asks
      inv.askPlace
      (by intro o' ho'; simp only [List.mem_singleton] at ho'; subst ho'; exact ⟨rfl, hside⟩)
      (by
        intro l hl o' ho'
        rcases List.mem_append.mp ho' with h1 | h1
        · exact hl o' h1
        · simp only [List.mem_singleton] at h1
          subst h1
          exact ⟨rfl, hside⟩)
  · show ((bidOrders st ++
        ((insertOrderAsk st.asks o.price o).map Prod.snd).flatten).map
        Order.order_id).Nodup
    rw [(hperm.map Order.order_id).nodup_iff]
    simp only [List.map_cons, List.nodup_cons]
    refine ⟨?_, inv.resNodup⟩
    intro hmem
    simp only [List.mem_map] at hmem
    obtain ⟨r, hr, hreq⟩ := hmem
    exact hfresh r hr hreq
  · intro e he
    have hmem : e.2 ∈ bidOrders st ++
        ((insertOrderAsk st.asks o.price o).map Prod.snd).flatten := by
      rw [hperm.mem_iff]
      rcases List.mem_append.mp he with h1 | h1
      · exact List.mem_cons_of_mem _ (inv.idxRes e h1)
      · simp only [List.mem_singleton] at h1
        subst h1
        exact List.mem_cons_self _ _
    exact hmem
  · intro r hr
    have hr' : r ∈ o :: residents st := hperm.mem_iff.mp hr
    rcases List.mem_cons.mp hr' with rfl | hr''
    · exact List.mem_append_right _ (List.mem_singleton_self _)
    · exact List.mem_append_left _ (inv.resIdx r hr'')
  · exact inv.bidSorted
  · exact insertOrderAsk_sorted o.price o st.asks inv.askSorted
  · exact hnc

end OrderbookV2
namespace OrderbookV2

/-- `add_order` preserves the invariant whenever it returns. -/
theorem add_order_inv {st : OrderBook} {o : Order} {st' : OrderBook}
    {ts : List Trade} (inv : Inv st) (h : st.add_order o = some (st', ts)) :
    Inv st' := by
  unfold OrderBook.add_order at h
  split at h
  · cases h
    exact inv
  next hdup =>
    split at h
    · cases h
      exact inv
    next hfak =>
      have hid : o.order_id ∉ idxIds st := by
        intro hmem
        apply hdup
        simp only [idxIds, List.mem_map] at hmem
        obtain ⟨e, he, heq⟩ := hmem
        exact List.any_eq_true.mpr ⟨e, he, beq_iff_eq.mpr heq⟩
      cases hside : o.side with
      | Buy =>
        rw [hside] at h
        dsimp only [OrderBook.match_orders] at h
        have hne_b : ∀ e ∈ (insertOrderBid st.bids o.price o), e.2 ≠ [] :=
          insertOrderBid_forall o.price o (fun e => e.2 ≠ []) st.bids
            inv.noEmptyBid (by simp) (by simp)
        obtain ⟨heq, hts, hnc⟩ := matchOrdersLoop_some_of_inv h hne_b inv.noEmptyAsk
        subst heq
        exact inv_insert_buy inv hside hid hnc
      | Sell =>
        rw [hside] at h
        dsimp only [OrderBook.match_orders] at h
        have hne_a : ∀ e ∈ (insertOrderAsk st.asks o.price o), e.2 ≠ [] :=
          insertOrderAsk_forall o.price o (fun e => e.2 ≠ []) st.asks
            inv.noEmptyAsk (by simp) (by simp)
        obtain ⟨heq, hts, hnc⟩ := matchOrdersLoop_some_of_inv h inv.noEmptyBid hne_a
        subst heq
        exact inv_insert_sell inv hside hid hnc

end OrderbookV2
namespace OrderbookV2

/-- Orders resting on the bid side are Buy orders. -/
theorem mem_bidOrders_side {st : OrderBook} (inv : Inv st) {r : Order}
    (hr : r ∈ bidOrders st) : r.side = Side.Buy := by
  simp only [bidOrders, List.mem_flatten, List.mem_map] at hr
  obtain ⟨l, ⟨e, he, rfl⟩, hrl⟩ := hr
  exact (inv.bidPlace e he r hrl).2

/-- Orders resting on the ask side are Sell orders. -/
theorem mem_askOrders_side {st : OrderBook} (inv : Inv st) {r : Order}
    (hr : r ∈ askOrders st) : r.side = Side.Sell := by
  simp only [askOrders, List.mem_flatten, List.mem_map] at hr
  obtain ⟨l, ⟨e, he, rfl⟩, hrl⟩ := hr
  exact (inv.askPlace e he r hrl).2

/-- The bids' keys are distinct. -/
theorem bid_keys_nodup {st : OrderBook} (inv : Inv st) :
    (st.bids.map Prod.fst).Nodup :=
  inv.bidSorted.imp (fun hlt => ne_of_gt hlt)

/-- The asks' keys are distinct. -/
theorem ask_keys_nodup {st : OrderBook} (inv : Inv st) :
    (st.asks.map Prod.fst).Nodup :=
  inv.askSorted.imp (fun hlt => ne_of_lt hlt)

/-- Cancelling a resident sell order preserves the invariant. -/
theorem inv_cancel_sell {st : OrderBook} (inv : Inv st) {id : Nat}
    {pe : Nat × Order} (hpe_mem : pe ∈ st.orders) (hpe_id : pe.2.order_id = id)
    (hside : pe.2.side = Side.Sell) :
    Inv { bids := st.bids, asks := removeOrderAt st.asks pe.2.price id,
          orders := eraseIdx st.orders id } := by
  have hpe_res : pe.2 ∈ residents st := inv.idxRes pe hpe_mem
  have hasksub := removeOrderAt_flatten_sublist pe.2.price id st.asks
  refine ⟨?_, ?_, ?_, ?_, ?_, ?_, ?_, ?_, ?_, ?_, ?_, ?_⟩
  · exact inv.noEmptyBid
  · exact removeOrderAt_noEmpty pe.2.price id st.asks inv.noEmptyAsk
  · exact ((List.filter_sublist st.orders).map Prod.fst).nodup inv.idxNodup
  · intro e he
    exact inv.idxKey e (List.mem_of_mem_filter he)
  · exact inv.bidPlace
  · exact removeOrderAt_place pe.2.price id
      (fun o k => o.price = k ∧ o.side = Side.Sell) st.asks inv.askPlace
  · exact (((List.Sublist.refl (bidOrders st)).append hasksub).map
      Order.order_id).nodup inv.resNodup
  · intro e he
    obtain ⟨hem, hbool⟩ := List.mem_filter.mp he
    have hne : e.1 ≠ id := by simpa using hbool
    have hres := inv.idxRes e hem
    have hoid : e.2.order_id ≠ id := (inv.idxKey e hem) ▸ hne
    rcases List.mem_append.mp hres with h1 | h1
    · exact List.mem_append_left _ h1
    · exact List.mem_append_right _ (removeOrderAt_mem pe.2.price id st.asks e.2 h1 hoid)
  · intro r hr
    have hr0 : r ∈ residents st := by
      rcases List.mem_append.mp hr with h1 | h1
      · exact List.mem_append_left _ h1
      · exact List.mem_append_right _ (hasksub.subset h1)
    have hpair := inv.resIdx r hr0
    refine List.mem_filter.mpr ⟨hpair, ?_⟩
    simp only [bne_iff_ne, ne_eq, decide_eq_true_eq]
    intro hrid
    have hreq : r = pe.2 :=
      List.inj_on_of_nodup_map inv.resNodup hr0 hpe_res (by rw [hrid, hpe_id])
    rcases List.mem_append.mp hr with h1 | h1
    · have := mem_bidOrders_side inv h1
      rw [hreq, hside] at this
      cases this
    · have := removeOrderAt_removed pe.2.price id st.asks (ask_keys_nodup inv)
        (fun e he o ho => (inv.askPlace e he o ho).1) r h1 hrid
      exact this (by rw [hreq])
  · exact inv.bidSorted
  · exact inv.askSorted.sublist (removeOrderAt_keys_sublist pe.2.price id st.asks)
  · intro b hb a' ha'
    cases hasks : st.asks with
    | nil =>
      rw [hasks] at ha'
      simp [removeOrderAt] at ha'
    | cons hd t =>
      obtain ⟨k0, l0⟩ := hd
      have hb_lt : b.1 < k0 := inv.notCrossed b hb (k0, l0) (by rw [hasks]; rfl)
      have ha_mem : a'.1 ∈ ((removeOrderAt st.asks pe.2.price id).map Prod.fst) :=
        List.mem_map_of_mem Prod.fst (List.mem_of_mem_head? ha')
      have ha_mem' : a'.1 ∈ st.asks.map Prod.fst :=
        (removeOrderAt_keys_sublist pe.2.price id st.asks).subset ha_mem
      rw [hasks] at ha_mem'
      simp only [List.map_cons, List.mem_cons] at ha_mem'
      have hsorted := inv.askSorted
      rw [hasks] at hsorted
      simp only [List.map_cons, List.pairwise_cons] at hsorted
      rcases ha_mem' with heq | hmem
      · rw [heq]
        exact hb_lt
      · exact lt_trans hb_lt (hsorted.1 a'.1 hmem)

/-- Cancelling a resident buy order preserves the invariant. -/
theorem inv_cancel_buy {st : OrderBook} (inv : Inv st) {id : Nat}
    {pe : Nat × Order} (hpe_mem : pe ∈ st.orders) (hpe_id : pe.2.order_id = id)
    (hside : pe.2.side = Side.Buy) :
    Inv { bids := removeOrderAt st.bids pe.2.price id, asks := st.asks,
          orders := eraseIdx st.orders id } := by
  have hpe_res : pe.2 ∈ residents st := inv.idxRes pe hpe_mem
  have hbidsub := removeOrderAt_flatten_sublist pe.2.price id st.bids
  refine ⟨?_, ?_, ?_, ?_, ?_, ?_, ?_, ?_, ?_, ?_, ?_, ?_⟩
  · exact removeOrderAt_noEmpty pe.2.price id st.bids inv.noEmptyBid
  · exact inv.noEmptyAsk
  · exact ((List.filter_sublist st.orders).map Prod.fst).nodup inv.idxNodup
  · intro e he
    exact inv.idxKey e (List.mem_of_mem_filter he)
  · exact removeOrderAt_place pe.2.price id
      (fun o k => o.price = k ∧ o.side = Side.Buy) st.bids inv.bidPlace
  · exact inv.askPlace
  · exact ((hbidsub.append (List.Sublist.refl (askOrders st))).map
      Order.order_id).nodup inv.resNodup
  · intro e he
    obtain ⟨hem, hbool⟩ := List.mem_filter.mp he
    have hne : e.1 ≠ id := by simpa using hbool
    have hres := inv.idxRes e hem
    have hoid : e.2.order_id ≠ id := (inv.idxKey e hem) ▸ hne
    rcases List.mem_append.mp hres with h1 | h1
    · exact List.mem_append_left _ (removeOrderAt_mem pe.2.price id st.bids e.2 h1 hoid)
    · exact List.mem_append_right _ h1
  · intro r hr
    have hr0 : r ∈ residents st := by
      rcases List.mem_append.mp hr with h1 | h1
      · exact List.mem_append_left _ (hbidsub.subset h1)
      · exact List.mem_append_right _ h1
    have hpair := inv.resIdx r hr0
    refine List.mem_filter.mpr ⟨hpair, ?_⟩
    simp only [bne_iff_ne, ne_eq, decide_eq_true_eq]
    intro hrid
    have hreq : r = pe.2 :=
      List.inj_on_of_nodup_map inv.resNodup hr0 hpe_res (by rw [hrid, hpe_id])
    rcases List.mem_append.mp hr with h1 | h1
    · have := removeOrderAt_removed pe.2.price id st.bids (bid_keys_nodup inv)
        (fun e he o ho => (inv.bidPlace e he o ho).1) r h1 hrid
      exact this (by rw [hreq])
    · have := mem_askOrders_side inv h1
      rw [hreq, hside] at this
      cases this
  · exact inv.bidSorted.sublist (removeOrderAt_keys_sublist pe.2.price id st.bids)
  · exact inv.askSorted
  · intro b' hb' a ha
    cases hbids : st.bids with
    | nil =>
      rw [hbids] at hb'
      simp [removeOrderAt] at hb'
    | cons hd t =>
      obtain ⟨k0, l0⟩ := hd
      have hb_lt : k0 < a.1 := inv.notCrossed (k0, l0) (by rw [hbids]; rfl) a ha
      have hb_mem : b'.1 ∈ ((removeOrderAt st.bids pe.2.price id).map Prod.fst) :=
        List.mem_map_of_mem Prod.fst (List.mem_of_mem_head? hb')
      have hb_mem' : b'.1 ∈ st.bids.map Prod.fst :=
        (removeOrderAt_keys_sublist pe.2.price id st.bids).subset hb_mem
      rw [hbids] at hb_mem'
      simp only [List.map_cons, List.mem_cons] at hb_mem'
      have hsorted := inv.bidSorted
      rw [hbids] at hsorted
      simp only [List.map_cons, List.pairwise_cons] at hsorted
      rcases hb_mem' with heq | hmem
      · rw [heq]
        exact hb_lt
      · exact lt_trans (hsorted.1 b'.1 hmem) hb_lt

end OrderbookV2
namespace OrderbookV2

/-- `cancel_order` preserves the invariant whenever it returns. -/
theorem cancel_order_inv {st : OrderBook} {id : Nat} {st' : OrderBook}
    (inv : Inv st) (h : st.cancel_order id = some st') : Inv st' := by
  unfold OrderBook.cancel_order at h
  split at h
  · simp at h
  next hall =>
    split at h
    · cases h
      exact inv
    next pe hpe =>
      split at h
      · simp at h
      next entry hentry =>
        have hpe_mem : pe ∈ st.orders := List.mem_of_find?_eq_some hpe
        have hpe_id : pe.2.order_id = id := by simpa using List.find?_some hpe
        have hpe_key : pe.1 = id := (inv.idxKey pe hpe_mem).symm.trans hpe_id
        have hent_mem : entry ∈ st.orders := List.mem_of_find?_eq_some hentry
        have hent_key : entry.1 = id := by simpa using List.find?_some hentry
        have hent_eq : entry = pe :=
          List.inj_on_of_nodup_map inv.idxNodup hent_mem hpe_mem
            (hent_key.trans hpe_key.symm)
        rw [hent_eq] at h
        cases hside : pe.2.side with
        | Buy =>
          rw [hside] at h
          dsimp only [] at h
          cases h
          exact inv_cancel_buy inv hpe_mem hpe_id hside
        | Sell =>
          rw [hside] at h
          dsimp only [] at h
          cases h
          exact inv_cancel_sell inv hpe_mem hpe_id hside

/-- `match_order` preserves the invariant whenever it returns. -/
theorem match_order_inv {st : OrderBook} {m : OrderModify} {st' : OrderBook}
    {ts : List Trade} (inv : Inv st) (h : st.match_order m = some (st', ts)) :
    Inv st' := by
  unfold OrderBook.match_order at h
  split at h
  · cases h
    exact inv
  next hall =>
    split at h
    · simp at h
    next e he =>
      split at h
      · simp at h
      next st1 hc =>
        exact add_order_inv (cancel_order_inv inv hc) h

/-- The empty book satisfies the invariant. -/
theorem inv_new : Inv OrderBook.new := by
  refine ⟨?_, ?_, ?_, ?_, ?_, ?_, ?_, ?_, ?_, ?_, ?_, ?_⟩ <;>
    simp [OrderBook.new, idxIds, residents, bidOrders, askOrders]

/-- Every reachable MatchCore state satisfies the invariant. -/
theorem reachable_inv {st : OrderBook} (h : Reachable st) : Inv st := by
  induction h with
  | new => exact inv_new
  | submit _ hstep ih => exact add_order_inv ih hstep
  | cancel _ hstep ih => exact cancel_order_inv ih hstep
  | modify _ hstep ih => exact match_order_inv ih hstep

/-- Exactly one resident order carries a resident id. -/
theorem countP_id_eq_one {l : List Order} (hn : (l.map Order.order_id).Nodup)
    {o : Order} (ho : o ∈ l) :
    l.countP (fun x => x.order_id == o.order_id) = 1 := by
  induction l with
  | nil => cases ho
  | cons hd t ih =>
    simp only [List.map_cons, List.nodup_cons] at hn
    rw [List.countP_cons]
    rcases List.mem_cons.mp ho with rfl | hot
    · have ht0 : t.countP (fun x => x.order_id == o.order_id) = 0 := by
        rw [List.countP_eq_zero]
        intro x hx hbe
        have : x.order_id = o.order_id := by simpa using hbe
        exact hn.1 (this ▸ List.mem_map_of_mem Order.order_id hx)
      simp [ht0]
    · have hne : (hd.order_id == o.order_id) = false := by
        rw [beq_eq_false_iff_ne]
        intro he
        exact hn.1 (he ▸ List.mem_map_of_mem Order.order_id hot)
      rw [ih hn.2 hot, hne]
      simp

end OrderbookV2
namespace OrderbookV2

/-- C8: every MatchCore state reachable by submit/cancel/modify operations
stores no empty price level, places resident orders on the side matching
their `side` field, and keeps the index a bijection with the resident
orders: an id is indexed iff exactly one resident order carries it, and
every resident order's id is indexed. -/
theorem reachable_levels_index_bijection (st : OrderBook) (h : Reachable st) :
    (∀ e ∈ st.bids, e.2 ≠ []) ∧ (∀ e ∈ st.asks, e.2 ≠ []) ∧
    (∀ o ∈ bidOrders st, o.side = Side.Buy) ∧
    (∀ o ∈ askOrders st, o.side = Side.Sell) ∧
    (∀ id, id ∈ idxIds st ↔
      (residents st).countP (fun o => o.order_id == id) = 1) ∧
    (∀ o ∈ residents st, o.order_id ∈ idxIds st) := by
  have inv := reachable_inv h
  refine ⟨inv.noEmptyBid, inv.noEmptyAsk,
    fun o ho => mem_bidOrders_side inv ho,
    fun o ho => mem_askOrders_side inv ho, ?_, ?_⟩
  · intro id
    constructor
    · intro hid
      simp only [idxIds, List.mem_map] at hid
      obtain ⟨e, he, rfl⟩ := hid
      have hres : e.2 ∈ residents st := inv.idxRes e he
      have hkey : e.2.order_id = e.1 := inv.idxKey e he
      have := countP_id_eq_one inv.resNodup hres
      rw [hkey] at this
      exact this
    · intro hcnt
      have hpos : 0 < (residents st).countP (fun o => o.order_id == id) :=
        hcnt ▸ Nat.zero_lt_one
      obtain ⟨o, ho, hoid⟩ := List.countP_pos_iff.mp hpos
      have hoid' : o.order_id = id := by simpa using hoid
      exact hoid' ▸ List.mem_map_of_mem Prod.fst (inv.resIdx o ho)
  · intro o ho
    exact List.mem_map_of_mem Prod.fst (inv.resIdx o ho)

/-- C9: a MatchCore state observable after any sequence of public operations
is never crossed: whenever `get_best_bid_ask` returns both prices, the best
bid is strictly below the best ask. -/
theorem reachable_not_crossed (st : OrderBook) (h : Reachable st)
    (pb pa : Int) (hba : st.get_best_bid_ask = some (pb, pa)) : pb < pa := by
  have inv := reachable_inv h
  unfold OrderBook.get_best_bid_ask at hba
  cases hb : st.bids.head? with
  | none =>
    rw [hb] at hba
    simp at hba
  | some b =>
    cases ha : st.asks.head? with
    | none =>
      rw [hb, ha] at hba
      simp at hba
    | some a =>
      rw [hb, ha] at hba
      simp only [Option.some.injEq, Prod.mk.injEq] at hba
      obtain ⟨hba1, hba2⟩ := hba
      rw [← hba1, ← hba2]
      exact inv.notCrossed b (Option.mem_def.mpr hb) a (Option.mem_def.mpr ha)

/-- The concrete two-sided book `stTwoSided` is reachable: submit GTC Buy
id=1 price=10 qty=5, then GTC Sell id=2 price=20 qty=5. -/
theorem reachable_stTwoSided : Reachable stTwoSided :=
  @Reachable.submit ⟨[(10, [oBuy10])], [], [(1, oBuy10)]⟩ oSell20 stTwoSided []
    (@Reachable.submit OrderBook.new oBuy10
      ⟨[(10, [oBuy10])], [], [(1, oBuy10)]⟩ [] Reachable.new (by decide))
    (by decide)

/-- Witness for `reachable_levels_index_bijection` at the concrete
reachable state `stTwoSided`. -/
theorem reachable_levels_index_bijection_witness :
    Reachable stTwoSided ∧
    (∀ e ∈ stTwoSided.bids, e.2 ≠ []) ∧
    (∀ id, id ∈ idxIds stTwoSided ↔
      (residents stTwoSided).countP (fun o => o.order_id == id) = 1) ∧
    (∀ o ∈ residents stTwoSided, o.order_id ∈ idxIds stTwoSided) :=
  ⟨reachable_stTwoSided,
    (reachable_levels_index_bijection stTwoSided reachable_stTwoSided).1,
    (reachable_levels_index_bijection stTwoSided reachable_stTwoSided).2.2.2.2.1,
    (reachable_levels_index_bijection stTwoSided reachable_stTwoSided).2.2.2.2.2⟩

/-- Witness for `reachable_not_crossed` at the concrete reachable state
`stTwoSided`, whose best bid is 10 and best ask is 20. -/
theorem reachable_not_crossed_witness :
    stTwoSided.get_best_bid_ask = some (10, 20) ∧ (10 : Int) < 20 :=
  ⟨rfl, reachable_not_crossed stTwoSided reachable_stTwoSided 10 20 rfl⟩

end OrderbookV2
